import Mathlib

/-
Verification of the expyriment template-realization engine
(src/expyriment/expyriment.py) against its design specification.

The engine walks an arbitrarily nested template value, finds `Candidates`
placeholders, enumerates the cartesian product of their candidate lists and
produces one fully substituted copy of the template per combination, together
with a dotted-path specification map.

Embedding choices:
- Python values are modelled by the tree type `Value`: opaque scalars (ints
  and strings), dataclass instances (`record`, with the declared fields in
  order), lists, tuples, string-keyed dicts (in insertion order), and the
  `Candidates` placeholder.
- Errors (AttributeError, IndexError, KeyError, TypeError) are modelled by
  `Option`: `none` is a raised exception.
- In-place mutation is modelled by its net effect on the root value: mutating
  the sub-object reached by an access path rewrites the root along that path
  (`updateAt`).  Templates are value trees, so the rewrite is exact.
- A generator that raises mid-iteration is modelled by a `List (Option _)`
  whose yielded items are the prefix of `some`s before the first `none`
  (`takeWhileSome`).
-/

namespace Expyriment

/-- A Python value appearing in a template, as a finite tree. -/
inductive Value where
  | int (n : Int)
  | str (s : String)
  | record (name : String) (fields : List (String × Value))
  | vlist (items : List Value)
  | vtuple (items : List Value)
  | vdict (entries : List (String × Value))
  | candidates (values : List Value)

/-- A position inside a container: an attribute/key name or a sequence index. -/
inductive Position where
  | name (s : String)
  | index (i : Nat)
deriving DecidableEq

/-- `str(position)`, as used for the dotted specification keys. -/
def Position.str : Position → String
  | .name s => s
  | .index i => toString i

/-- How to access a candidate (class `CandidateAccessType`). -/
inductive CandidateAccessType where
  | DATACLASS_ATTR
  | LIST_ITEM
  | TUPLE_ITEM
  | DICT_VALUE
deriving DecidableEq

/-- How and where to access a candidate placed in a container. -/
structure CandidateAccess where
  access_type : CandidateAccessType
  position : Position
deriving DecidableEq

/-- First value bound to a key in an association list (Python attribute or
dict lookup; field names and dict keys are unique in actual Python objects). -/
def lookupField : List (String × Value) → String → Option Value
  | [], _ => none
  | (k, v) :: rest, s => if k = s then some v else lookupField rest s

/-- Whether an association list holds a key. -/
def hasKey : List (String × Value) → String → Bool
  | [], _ => false
  | (k, _) :: rest, s => k = s || hasKey rest s

/-- Replace the first value bound to a key in an association list. -/
def updateKey : List (String × Value) → String → Value → List (String × Value)
  | [], _, _ => []
  | (k, v0) :: rest, s, v =>
      if k = s then (k, v) :: rest else (k, v0) :: updateKey rest s v

/-- `container[position]`: Python subscription, which dispatches on the run
time type of the container, not on the access type.  Integer-keyed dicts are
outside the model. -/
def subscript (container : Value) (pos : Position) : Option Value :=
  match container, pos with
  | .vlist items, .index i => items.get? i
  | .vtuple items, .index i => items.get? i
  | .vdict es, .name s => lookupField es s
  | _, _ => none

/-- The source's `_getter`: `getattr` for the dataclass kind, subscription for
the three others. -/
def _getter (container : Value) (access : CandidateAccess) : Option Value :=
  match access.access_type with
  | .DATACLASS_ATTR =>
    match container, access.position with
    | .record _ fs, .name s => lookupField fs s
    | _, _ => none
  | _ => subscript container access.position

/-- The walk of `BindingRealization.apply` over `self.path[:-1]`: chained
`_getter` calls from the root. -/
def walk : Value → List CandidateAccess → Option Value
  | container, [] => some container
  | container, item :: rest =>
    match _getter container item with
    | none => none
    | some next => walk next rest

/-- Write `v` into exactly the slot that `_getter container access` reads.
This is the aliasing model used by `updateAt`: replacing a sub-object that was
reached through any container kind, tuples included, is visible from the
container.  It is not itself a Python mutation. -/
def putBack (container : Value) (access : CandidateAccess) (v : Value) : Option Value :=
  match access.access_type with
  | .DATACLASS_ATTR =>
    match container, access.position with
    | .record n fs, .name s => if hasKey fs s then some (.record n (updateKey fs s v)) else none
    | _, _ => none
  | _ =>
    match container, access.position with
    | .vlist items, .index i => if i < items.length then some (.vlist (items.set i v)) else none
    | .vtuple items, .index i => if i < items.length then some (.vtuple (items.set i v)) else none
    | .vdict es, .name s => if hasKey es s then some (.vdict (updateKey es s v)) else none
    | _, _ => none

/-- Net effect on `root` of transforming the sub-object at path `p`:
walk down with `_getter`, apply `f`, and thread the result back up.  Models
the visibility of an in-place mutation of a sub-object from the root. -/
def updateAt (root : Value) : List CandidateAccess → (Value → Option Value) → Option Value
  | [], f => f root
  | item :: rest, f =>
    match _getter root item with
    | none => none
    | some child =>
      match updateAt child rest f with
      | none => none
      | some child2 => putBack root item child2

/-- `container[position] = value`: Python subscript assignment.  Lists require
the index to exist; dicts insert or update; tuples and scalars raise
`TypeError`.  Integer-keyed dicts are outside the model. -/
def subscriptAssign (container : Value) (pos : Position) (value : Value) :
    Option Value :=
  match container, pos with
  | .vlist items, .index i =>
      if i < items.length then some (.vlist (items.set i value)) else none
  | .vdict es, .name s =>
      if hasKey es s then some (.vdict (updateKey es s value))
      else some (.vdict (es ++ [(s, value)]))
  | _, _ => none

/-- The in-place branches of the source's `_setter` (dataclass attribute and
subscript assignment), returning the mutated container.  `setattr` on a field
that is not declared would create an undeclared instance attribute, which a
declared-fields record cannot represent, so it is left out of the model.
The immutable-sequence branch is handled by `_setter` itself. -/
def setInPlace (container : Value) (access : CandidateAccess) (value : Value) :
    Option Value :=
  match access.access_type with
  | .DATACLASS_ATTR =>
    match container, access.position with
    | .record n fs, .name s =>
        if hasKey fs s then some (.record n (updateKey fs s value)) else none
    | _, _ => none
  | .TUPLE_ITEM => none
  | _ => subscriptAssign container access.position value

/-- The elements `enumerate` iterates over when the tuple branch of `_setter`
rebuilds a sequence.  Lists are iterable too; other iterables (mapping keys,
characters of a string) cannot arise from discovered paths and are outside
the model. -/
def enumItems : Value → Option (List Value)
  | .vtuple items => some items
  | .vlist items => some items
  | _ => none

/-- The tuple the source rebuilds:
`value if i == access.position else previous_value` over `enumerate`.
A position beyond the length (or a non-integer position) matches no index and
the elements are reproduced unchanged. -/
def tupleSubst (items : List Value) (pos : Position) (value : Value) : List Value :=
  match pos with
  | .index i => items.set i value
  | .name _ => items

/-- The source's `_setter`, expressed as its net effect on `root`.  The target
container sits at path `pre` under `root`; its parent (the source's `parent`
argument) sits at `pre.dropLast`, reached via the step `pre.getLast?`.

The dataclass, list and dict branches mutate the container in place.  The
tuple branch builds a new tuple and recursively assigns it into the parent
with `parent = None`: if the container is the root there is no parent and
the recursive call dereferences `None` and raises; if the parent step is
itself a tuple item, the inner recursive call does the same. -/
def _setter (root : Value) (pre : List CandidateAccess) (access : CandidateAccess)
    (value : Value) : Option Value :=
  match access.access_type with
  | .TUPLE_ITEM =>
    match (walk root pre).bind enumItems with
    | none => none
    | some items =>
      let new_tuple := Value.vtuple (tupleSubst items access.position value)
      match pre.getLast? with
      | none => none
      | some parent_access =>
        match parent_access.access_type with
        | .TUPLE_ITEM => none
        | _ => updateAt root pre.dropLast
            (fun parent => setInPlace parent parent_access new_tuple)
  | _ => updateAt root pre (fun container => setInPlace container access value)

/-- Realization of a binding: an access path with one chosen value. -/
structure BindingRealization where
  path : List CandidateAccess
  value : Value

/-- `BindingRealization.apply`: walk to the second-to-last step and set the
last one.  `self.path[-1]` on an empty path raises `IndexError`. -/
def BindingRealization.apply (br : BindingRealization) (root : Value) : Option Value :=
  match br.path.getLast? with
  | none => none
  | some last => _setter root br.path.dropLast last br.value

/-- Dotted representation of an access path: each step's position,
stringified, joined by dots. -/
def dottedPath (path : List CandidateAccess) : String :=
  String.intercalate "." (path.map fun item => item.position.str)

/-- `BindingRealization.get_specification`: the one-entry dict
`{'.'.join(str(position) for position in path): value}`. -/
def BindingRealization.get_specification (br : BindingRealization) :
    List (String × Value) :=
  [(dottedPath br.path, br.value)]

/-- A binding: an access path with the candidate values found there. -/
structure Binding where
  path : List CandidateAccess
  values : List Value

/-- `Binding.realize`: one `BindingRealization` per candidate value, in
order. -/
def Binding.realize (b : Binding) : List BindingRealization :=
  b.values.map fun value => ⟨b.path, value⟩

/-- Realization of a full template. -/
structure TemplateRealization where
  specification : List (String × Value)
  realization : Value

mutual

/-- The source's `_get_bindings`: recursively walk `container` and yield one
binding per `Candidates` found.  A `Candidates` stops the recursion (its
values are not searched); the four container kinds recurse through their
dedicated helpers; anything else yields nothing. -/
def _get_bindings : List CandidateAccess → Value → List Binding
  | path, .candidates vs => [⟨path, vs⟩]
  | path, .record _ fs => _get_bindings_from_class path fs
  | path, .vlist items => _get_bindings_from_seq .LIST_ITEM path 0 items
  | path, .vtuple items => _get_bindings_from_seq .TUPLE_ITEM path 0 items
  | path, .vdict es => _get_bindings_from_dict path es
  | _, .int _ => []
  | _, .str _ => []

/-- `_get_bindings_from_class`: the declared fields, in declaration order. -/
def _get_bindings_from_class : List CandidateAccess → List (String × Value) → List Binding
  | _, [] => []
  | path, (fname, fval) :: rest =>
      _get_bindings (path ++ [⟨.DATACLASS_ATTR, .name fname⟩]) fval ++
        _get_bindings_from_class path rest

/-- `_get_bindings_from_list` and `_get_bindings_from_tuple`: the elements by
ascending index (`i` is the index of the head). -/
def _get_bindings_from_seq :
    CandidateAccessType → List CandidateAccess → Nat → List Value → List Binding
  | _, _, _, [] => []
  | t, path, i, v :: rest =>
      _get_bindings (path ++ [⟨t, .index i⟩]) v ++
        _get_bindings_from_seq t path (i + 1) rest

/-- `_get_bindings_from_dict`: the entries in the dict's iteration
(= insertion) order. -/
def _get_bindings_from_dict : List CandidateAccess → List (String × Value) → List Binding
  | _, [] => []
  | path, (k, v) :: rest =>
      _get_bindings (path ++ [⟨.DICT_VALUE, .name k⟩]) v ++
        _get_bindings_from_dict path rest

end

/-- `itertools.product`: all combinations, the first list varying slowest and
the last varying fastest; the product of no lists is one empty tuple. -/
def listProduct {α : Type} : List (List α) → List (List α)
  | [] => [[]]
  | l :: ls => l.flatMap fun x => (listProduct ls).map fun xs => x :: xs

/-- `_get_all_binding_realizations`: the cartesian product of the realizations
of the bindings discovered from an empty path. -/
def _get_all_binding_realizations (template : Value) : List (List BindingRealization) :=
  listProduct ((_get_bindings [] template).map Binding.realize)

/-- `count_realizations`: multiply the candidate-list lengths of the
discovered bindings, starting from 1. -/
def count_realizations (template : Value) : Nat :=
  (_get_bindings [] template).foldl (fun count binding => count * binding.values.length) 1

/-- `dict.update` with a one-entry dict: update the first occurrence of the
key, or append the entry in insertion order. -/
def dictInsert (d : List (String × Value)) (k : String) (v : Value) :
    List (String × Value) :=
  if hasKey d k then updateKey d k v else d ++ [(k, v)]

/-- The loop of `_realize`: accumulate each binding realization's
specification entry, then apply its value; an exception from `apply` aborts
the whole realization. -/
def applyAll : Value → List (String × Value) → List BindingRealization →
    Option TemplateRealization
  | real, specification, [] => some ⟨specification, real⟩
  | real, specification, br :: rest =>
    let specification2 :=
      br.get_specification.foldl (fun s kv => dictInsert s kv.1 kv.2) specification
    match br.apply real with
    | none => none
    | some real2 => applyAll real2 specification2 rest

/-- `_realize`: deep-copy the template (the identity on value trees) and apply
every binding realization to the copy. -/
def _realize (template : Value) (binding_realizations : List BindingRealization) :
    Option TemplateRealization :=
  applyAll template [] binding_realizations

/-- `realize_template`: one (attempted) realization per cartesian tuple, in
product order.  `none` marks the combination whose realization raises. -/
def realize_template (template : Value) : List (Option TemplateRealization) :=
  (_get_all_binding_realizations template).map fun brs => _realize template brs

/-- The items a Python generator actually yields when some step may raise:
the prefix of successes before the first exception. -/
def takeWhileSome {α : Type} : List (Option α) → List α
  | [] => []
  | none :: _ => []
  | some a :: rest => a :: takeWhileSome rest

/-- The `TemplateRealization`s an iteration of `realize_template` yields. -/
def yieldedRealizations (template : Value) : List TemplateRealization :=
  takeWhileSome (realize_template template)

mutual

/-- Spec-side placeholder count: a placeholder node counts once and its own
candidate values are not searched; containers sum over their children; opaque
scalars hold no placeholders. -/
def countPlaceholders : Value → Nat
  | .candidates _ => 1
  | .record _ fs => countPlaceholdersPairs fs
  | .vlist items => countPlaceholdersList items
  | .vtuple items => countPlaceholdersList items
  | .vdict es => countPlaceholdersPairs es
  | .int _ => 0
  | .str _ => 0

/-- Placeholders in a list of child values. -/
def countPlaceholdersList : List Value → Nat
  | [] => 0
  | v :: rest => countPlaceholders v + countPlaceholdersList rest

/-- Placeholders in the values of a key-value list. -/
def countPlaceholdersPairs : List (String × Value) → Nat
  | [] => 0
  | kv :: rest => countPlaceholders kv.2 + countPlaceholdersPairs rest

end

/-- Spec-side presence of an addressed slot: the record-field kind addresses a
declared field of a record, the two sequence kinds an index below the length
of an actual sequence, the mapping kind a key of a mapping.  (Subscription
does not distinguish the mutable and immutable sequence kinds.) -/
def stepPresent (container : Value) (access : CandidateAccess) : Bool :=
  match access.access_type with
  | .DATACLASS_ATTR =>
    match container, access.position with
    | .record _ fs, .name s => hasKey fs s
    | _, _ => false
  | _ =>
    match container, access.position with
    | .vlist items, .index i => decide (i < items.length)
    | .vtuple items, .index i => decide (i < items.length)
    | .vdict es, .name s => hasKey es s
    | _, _ => false

/-- Product of the lengths of a list of lists. -/
def prodLengths {α : Type} (ls : List (List α)) : Nat :=
  (ls.map List.length).prod

/-- Spec-side mixed-radix indexing into a cross product: the first list's
index is the quotient of `k` by the number of combinations of the remaining
lists (so it cycles slowest), the remaining lists are indexed by the
remainder (so the last list's index advances on every step). -/
def mixedRadixAt {α : Type} : List (List α) → Nat → Option (List α)
  | [], k => if k = 0 then some [] else none
  | l :: ls, k =>
    match l.get? (k / prodLengths ls), mixedRadixAt ls (k % prodLengths ls) with
    | some x, some xs => some (x :: xs)
    | _, _ => none

/-- Structural induction over `Value`, with the children of list-shaped
constructors handled pointwise. -/
theorem Value.indOn {P : Value → Prop}
    (hint : ∀ n, P (.int n))
    (hstr : ∀ s, P (.str s))
    (hrecord : ∀ nm fs, (∀ kv ∈ fs, P kv.2) → P (.record nm fs))
    (hvlist : ∀ items, (∀ v ∈ items, P v) → P (.vlist items))
    (hvtuple : ∀ items, (∀ v ∈ items, P v) → P (.vtuple items))
    (hvdict : ∀ es, (∀ kv ∈ es, P kv.2) → P (.vdict es))
    (hcand : ∀ vs, (∀ v ∈ vs, P v) → P (.candidates vs)) :
    ∀ v, P v := by
  have key : ∀ (n : Nat) (v : Value), sizeOf v ≤ n → P v := by
    intro n
    induction n with
    | zero => intro v hv; exfalso; cases v <;> simp at hv
    | succ n ih =>
      intro v hv
      have hmem₂ : ∀ (l : List (String × Value)) (kv : String × Value),
          kv ∈ l → sizeOf l ≤ n + 1 → sizeOf kv.2 ≤ n := by
        intro l kv hkv hl
        have h1 := List.sizeOf_lt_of_mem hkv
        obtain ⟨a, b⟩ := kv
        simp at h1 ⊢
        omega
      have hmem₁ : ∀ (l : List Value) (v : Value),
          v ∈ l → sizeOf l ≤ n + 1 → sizeOf v ≤ n := by
        intro l v hvl hl
        have h1 := List.sizeOf_lt_of_mem hvl
        omega
      match v with
      | .int m => exact hint m
      | .str s => exact hstr s
      | .record nm fs =>
        refine hrecord nm fs fun kv hkv => ih kv.2 (hmem₂ fs kv hkv ?_)
        simp at hv; omega
      | .vlist items =>
        refine hvlist items fun w hw => ih w (hmem₁ items w hw ?_)
        simp at hv; omega
      | .vtuple items =>
        refine hvtuple items fun w hw => ih w (hmem₁ items w hw ?_)
        simp at hv; omega
      | .vdict es =>
        refine hvdict es fun kv hkv => ih kv.2 (hmem₂ es kv hkv ?_)
        simp at hv; omega
      | .candidates vs =>
        refine hcand vs fun w hw => ih w (hmem₁ vs w hw ?_)
        simp at hv; omega
  intro v
  exact key (sizeOf v) v le_rfl

theorem get_bindings_from_class_eq (fs : List (String × Value)) :
    ∀ path, _get_bindings_from_class path fs =
      (fs.map fun kv =>
        _get_bindings (path ++ [⟨.DATACLASS_ATTR, .name kv.1⟩]) kv.2).flatten := by
  induction fs with
  | nil => intro path; simp [_get_bindings_from_class]
  | cons kv rest ih =>
    intro path
    obtain ⟨k, v⟩ := kv
    simp [_get_bindings_from_class, ih]

theorem get_bindings_from_seq_eq (t : CandidateAccessType) (items : List Value) :
    ∀ path i, _get_bindings_from_seq t path i items =
      ((items.enumFrom i).map fun iv =>
        _get_bindings (path ++ [⟨t, .index iv.1⟩]) iv.2).flatten := by
  induction items with
  | nil => intro path i; simp [_get_bindings_from_seq]
  | cons v rest ih =>
    intro path i
    simp [_get_bindings_from_seq, List.enumFrom, ih]

theorem get_bindings_from_dict_eq (es : List (String × Value)) :
    ∀ path, _get_bindings_from_dict path es =
      (es.map fun kv =>
        _get_bindings (path ++ [⟨.DICT_VALUE, .name kv.1⟩]) kv.2).flatten := by
  induction es with
  | nil => intro path; simp [_get_bindings_from_dict]
  | cons kv rest ih =>
    intro path
    obtain ⟨k, v⟩ := kv
    simp [_get_bindings_from_dict, ih]

theorem get_bindings_from_class_length (fs : List (String × Value))
    (h : ∀ kv ∈ fs, ∀ p, (_get_bindings p kv.2).length = countPlaceholders kv.2) :
    ∀ path, (_get_bindings_from_class path fs).length = countPlaceholdersPairs fs := by
  induction fs with
  | nil => intro path; simp [_get_bindings_from_class, countPlaceholdersPairs]
  | cons kv rest ih =>
    intro path
    obtain ⟨k, v⟩ := kv
    simp only [_get_bindings_from_class, countPlaceholdersPairs, List.length_append]
    rw [h (k, v) (by simp), ih (fun kv hkv p => h kv (by simp [hkv]) p)]

theorem get_bindings_from_seq_length (t : CandidateAccessType) (items : List Value)
    (h : ∀ v ∈ items, ∀ p, (_get_bindings p v).length = countPlaceholders v) :
    ∀ path i, (_get_bindings_from_seq t path i items).length =
      countPlaceholdersList items := by
  induction items with
  | nil => intro path i; simp [_get_bindings_from_seq, countPlaceholdersList]
  | cons v rest ih =>
    intro path i
    simp only [_get_bindings_from_seq, countPlaceholdersList, List.length_append]
    rw [h v (by simp), ih (fun v hv p => h v (by simp [hv]) p)]

theorem get_bindings_from_dict_length (es : List (String × Value))
    (h : ∀ kv ∈ es, ∀ p, (_get_bindings p kv.2).length = countPlaceholders kv.2) :
    ∀ path, (_get_bindings_from_dict path es).length = countPlaceholdersPairs es := by
  induction es with
  | nil => intro path; simp [_get_bindings_from_dict, countPlaceholdersPairs]
  | cons kv rest ih =>
    intro path
    obtain ⟨k, v⟩ := kv
    simp only [_get_bindings_from_dict, countPlaceholdersPairs, List.length_append]
    rw [h (k, v) (by simp), ih (fun kv hkv p => h kv (by simp [hkv]) p)]

/-- Discovery emits exactly one binding per placeholder. -/
theorem get_bindings_length (v : Value) :
    ∀ path, (_get_bindings path v).length = countPlaceholders v := by
  induction v using Value.indOn with
  | hint n => intro path; simp [_get_bindings, countPlaceholders]
  | hstr s => intro path; simp [_get_bindings, countPlaceholders]
  | hrecord nm fs h =>
    intro path
    simp only [_get_bindings, countPlaceholders]
    exact get_bindings_from_class_length fs h path
  | hvlist items h =>
    intro path
    simp only [_get_bindings, countPlaceholders]
    exact get_bindings_from_seq_length _ items h path 0
  | hvtuple items h =>
    intro path
    simp only [_get_bindings, countPlaceholders]
    exact get_bindings_from_seq_length _ items h path 0
  | hvdict es h =>
    intro path
    simp only [_get_bindings, countPlaceholders]
    exact get_bindings_from_dict_length es h path
  | hcand vs h => intro path; simp [_get_bindings, countPlaceholders]

theorem get_bindings_nil_iff (t : Value) :
    _get_bindings [] t = [] ↔ countPlaceholders t = 0 := by
  rw [← get_bindings_length t [], List.length_eq_zero]

theorem flatMap_cons_length {α : Type} (P : List (List α)) :
    ∀ l : List α, (l.flatMap fun x => P.map (x :: ·)).length = l.length * P.length := by
  intro l
  induction l with
  | nil => simp
  | cons x xs ih =>
    simp only [List.flatMap_cons, List.length_append, List.length_map,
      List.length_cons, ih]
    ring

theorem listProduct_length {α : Type} :
    ∀ ls : List (List α), (listProduct ls).length = prodLengths ls := by
  intro ls
  induction ls with
  | nil => rfl
  | cons l rest ih =>
    have hcons : prodLengths (l :: rest) = l.length * prodLengths rest := by
      simp [prodLengths]
    rw [hcons]
    simp only [listProduct]
    rw [flatMap_cons_length, ih]

theorem flatMap_uniform_get? {α β : Type} (f : α → List β) (P : Nat) :
    ∀ (l : List α) (k : Nat), (∀ x ∈ l, (f x).length = P) →
      (l.flatMap f).get? k = (l.get? (k / P)).bind fun x => (f x).get? (k % P) := by
  intro l
  induction l with
  | nil => intro k h; rfl
  | cons x xs ih =>
    intro k h
    have hx : (f x).length = P := h x (by simp)
    rcases Nat.eq_zero_or_pos P with hP | hP
    · subst hP
      have hall : (x :: xs).flatMap f = [] := by
        rw [List.flatMap_eq_nil_iff]
        intro y hy
        exact List.length_eq_zero.mp (h y hy)
      rw [hall]
      have hfx : f x = [] := List.length_eq_zero.mp hx
      simp [hfx]
    · by_cases hk : k < P
      · have h0 : k / P = 0 := Nat.div_eq_of_lt hk
        have h1 : k % P = k := Nat.mod_eq_of_lt hk
        simp only [List.flatMap_cons, h0, h1, List.get?_cons_zero, Option.some_bind]
        exact List.get?_append (by omega)
      · push_neg at hk
        have h0 : k / P = (k - P) / P + 1 := by
          rw [Nat.div_eq_sub_div hP hk]
        have h1 : k % P = (k - P) % P := Nat.mod_eq_sub_mod hk
        simp only [List.flatMap_cons, h0, h1, List.get?_cons_succ]
        rw [List.get?_append_right (by omega)]
        rw [hx, ih (k - P) (fun y hy => h y (by simp [hy]))]

theorem listProduct_get? {α : Type} :
    ∀ (ls : List (List α)) (k : Nat), (listProduct ls).get? k = mixedRadixAt ls k := by
  intro ls
  induction ls with
  | nil =>
    intro k
    cases k <;> simp [listProduct, mixedRadixAt]
  | cons l rest ih =>
    intro k
    simp only [listProduct, mixedRadixAt]
    rw [flatMap_uniform_get? _ (prodLengths rest) l k
      (fun x _ => by simp [listProduct_length])]
    rw [← ih]
    rcases h1 : l.get? (k / prodLengths rest) with _ | x
    · rfl
    · simp only [Option.some_bind]
      rw [List.get?_map]
      rcases h2 : (listProduct rest).get? (k % prodLengths rest) with _ | xs <;> rfl

theorem listProduct_nodup {α : Type} :
    ∀ ls : List (List α), (∀ l ∈ ls, l.Nodup) → (listProduct ls).Nodup := by
  intro ls
  induction ls with
  | nil => intro _; simp [listProduct]
  | cons l rest ih =>
    intro h
    have hl : l.Nodup := h l (by simp)
    have hrest : (listProduct rest).Nodup := ih (fun x hx => h x (by simp [hx]))
    simp only [listProduct]
    rw [List.nodup_flatMap]
    constructor
    · intro x _
      exact hrest.map (fun a b hab => by injection hab)
    · refine hl.imp ?_
      intro a b hab
      intro z hza hzb
      simp only [List.mem_map] at hza hzb
      obtain ⟨xs, _, rfl⟩ := hza
      obtain ⟨ys, _, heq⟩ := hzb
      injection heq with h1 _
      exact hab h1.symm

theorem listProduct_mem_shape {α : Type} :
    ∀ (ls : List (List α)) (tup : List α), tup ∈ listProduct ls →
      tup.length = ls.length ∧
      ∀ m x l, tup.get? m = some x → ls.get? m = some l → x ∈ l := by
  intro ls
  induction ls with
  | nil =>
    intro tup htup
    simp [listProduct] at htup
    subst htup
    simp
  | cons l rest ih =>
    intro tup htup
    simp only [listProduct, List.mem_flatMap, List.mem_map] at htup
    obtain ⟨x, hx, xs, hxs, rfl⟩ := htup
    obtain ⟨hlen, hget⟩ := ih xs hxs
    refine ⟨by simp [hlen], ?_⟩
    intro m y l' hy hl'
    match m with
    | 0 =>
      simp at hy hl'
      subst hy; subst hl'
      exact hx
    | m + 1 =>
      rw [List.get?_cons_succ] at hy hl'
      exact hget m y l' hy hl'

theorem takeWhileSome_all_some {α : Type} :
    ∀ l : List (Option α), (∀ x ∈ l, x.isSome) → (takeWhileSome l).length = l.length := by
  intro l
  induction l with
  | nil => intro _; simp [takeWhileSome]
  | cons x xs ih =>
    intro h
    have hx := h x (by simp)
    rcases x with _ | a
    · simp at hx
    · simp [takeWhileSome, ih (fun y hy => h y (by simp [hy]))]

theorem count_realizations_eq_prod (t : Value) :
    count_realizations t = ((_get_bindings [] t).map fun b => b.values.length).prod := by
  rw [count_realizations, List.prod_eq_foldl, List.foldl_map]

theorem hasKey_append (a b : List (String × Value)) (k : String) :
    hasKey (a ++ b) k = (hasKey a k || hasKey b k) := by
  induction a with
  | nil => simp [hasKey]
  | cons kv rest ih =>
    obtain ⟨k0, v0⟩ := kv
    simp [hasKey, ih, Bool.or_assoc]

theorem dictInsert_fresh (s : List (String × Value)) (k : String) (v : Value)
    (h : hasKey s k = false) : dictInsert s k v = s ++ [(k, v)] := by
  simp [dictInsert, h]

/-- Accumulating one-entry `dict.update`s with pairwise fresh, mutually
distinct keys appends the entries in order. -/
theorem foldl_dictInsert_fresh :
    ∀ (pairs s : List (String × Value)), (pairs.map Prod.fst).Nodup →
      (∀ kv ∈ pairs, hasKey s kv.1 = false) →
      pairs.foldl (fun d kv => dictInsert d kv.1 kv.2) s = s ++ pairs := by
  intro pairs
  induction pairs with
  | nil => intro s _ _; simp
  | cons kv rest ih =>
    intro s hnd hfresh
    obtain ⟨k, v⟩ := kv
    rw [List.map_cons, List.nodup_cons] at hnd
    simp only [List.foldl_cons]
    rw [dictInsert_fresh s k v (hfresh (k, v) (by simp))]
    rw [ih (s ++ [(k, v)]) hnd.2 ?_]
    · simp
    · intro kv' hkv'
      rw [hasKey_append]
      have h1 : hasKey s kv'.1 = false := hfresh kv' (by simp [hkv'])
      have hmem : kv'.1 ∈ rest.map Prod.fst := List.mem_map_of_mem _ hkv'
      have h2 : ¬ (k = kv'.1) := fun hk => hnd.1 (hk ▸ hmem)
      simp [h1, hasKey, h2]

/-- The specification accumulated by a successful `applyAll` run. -/
theorem applyAll_specification :
    ∀ (brs : List BindingRealization) (real : Value) (spec : List (String × Value)) r,
      applyAll real spec brs = some r →
      r.specification =
        brs.foldl (fun s br => dictInsert s (dottedPath br.path) br.value) spec := by
  intro brs
  induction brs with
  | nil =>
    intro real spec r h
    simp only [applyAll] at h
    cases h
    rfl
  | cons br rest ih =>
    intro real spec r h
    simp only [applyAll, BindingRealization.get_specification, List.foldl_cons] at h ⊢
    rcases ha : br.apply real with _ | real2
    · rw [ha] at h; cases h
    · rw [ha] at h
      exact ih real2 _ r h

/-- The specification of a successful realization whose binding keys are
mutually distinct is exactly the ordered list of (dotted path, value) pairs. -/
theorem realize_specification (t : Value) (tup : List BindingRealization)
    (r : TemplateRealization)
    (h : _realize t tup = some r)
    (hnd : (tup.map fun br => dottedPath br.path).Nodup) :
    r.specification = tup.map fun br => (dottedPath br.path, br.value) := by
  rw [applyAll_specification tup t [] r h]
  have hfold :
      tup.foldl (fun s br => dictInsert s (dottedPath br.path) br.value) [] =
      (tup.map fun br => (dottedPath br.path, br.value)).foldl
        (fun d kv => dictInsert d kv.1 kv.2) [] := by
    rw [List.foldl_map]
  rw [hfold, foldl_dictInsert_fresh _ [] ?_ ?_]
  · simp
  · simp only [List.map_map]
    exact hnd
  · intro kv _
    simp [hasKey]

theorem lookupField_eq_none_iff (fs : List (String × Value)) (s : String) :
    lookupField fs s = none ↔ hasKey fs s = false := by
  induction fs with
  | nil => simp [lookupField, hasKey]
  | cons kv rest ih =>
    obtain ⟨k, v⟩ := kv
    by_cases hk : k = s <;> simp [lookupField, hasKey, hk, ih]

/-- C4: `_getter` reads a record field by name and the list, tuple and dict
kinds by index or key; it raises (modelled as `none`) exactly when the
addressed field, index or key is absent from the actual container; and every
entry of `realize_template` is computed independently from the template and
its own combination alone, so a raised error in one combination aborts only
that realization and cannot disturb previously produced ones. -/
theorem c4_getter_reads_and_fails_on_absent :
    (∀ (container : Value) (access : CandidateAccess),
      _getter container access = none ↔ stepPresent container access = false)
    ∧ (∀ nm fs s, _getter (.record nm fs) ⟨.DATACLASS_ATTR, .name s⟩ = lookupField fs s)
    ∧ (∀ items i, _getter (.vlist items) ⟨.LIST_ITEM, .index i⟩ = items.get? i)
    ∧ (∀ items i, _getter (.vtuple items) ⟨.TUPLE_ITEM, .index i⟩ = items.get? i)
    ∧ (∀ es s, _getter (.vdict es) ⟨.DICT_VALUE, .name s⟩ = lookupField es s)
    ∧ (∀ (t : Value) (k : Nat), (realize_template t).get? k =
        ((_get_all_binding_realizations t).get? k).map fun brs => _realize t brs) := by
  refine ⟨?_, fun nm fs s => rfl, fun items i => rfl, fun items i => rfl,
    fun es s => rfl, fun t k => by rw [realize_template, List.get?_map]⟩
  intro container access
  obtain ⟨ty, pos⟩ := access
  cases ty <;> cases container <;> cases pos <;>
    simp [_getter, subscript, stepPresent, lookupField_eq_none_iff,
      List.get?_eq_none]

/-- C7: binding discovery is a deterministic depth-first pre-order traversal
emitting exactly one binding per placeholder: a placeholder yields a single
binding holding its path and candidate list and is not searched further,
records are traversed in field declaration order, sequences and immutable
sequences by ascending index, mappings in entry (insertion) order, and opaque
scalars yield no bindings. -/
theorem c7_discovery_preorder :
    (∀ path vs, _get_bindings path (.candidates vs) = [⟨path, vs⟩])
    ∧ (∀ path nm fs, _get_bindings path (.record nm fs) =
        (fs.map fun kv =>
          _get_bindings (path ++ [⟨.DATACLASS_ATTR, .name kv.1⟩]) kv.2).flatten)
    ∧ (∀ path items, _get_bindings path (.vlist items) =
        (items.enum.map fun iv =>
          _get_bindings (path ++ [⟨.LIST_ITEM, .index iv.1⟩]) iv.2).flatten)
    ∧ (∀ path items, _get_bindings path (.vtuple items) =
        (items.enum.map fun iv =>
          _get_bindings (path ++ [⟨.TUPLE_ITEM, .index iv.1⟩]) iv.2).flatten)
    ∧ (∀ path es, _get_bindings path (.vdict es) =
        (es.map fun kv =>
          _get_bindings (path ++ [⟨.DICT_VALUE, .name kv.1⟩]) kv.2).flatten)
    ∧ (∀ path n, _get_bindings path (.int n) = [])
    ∧ (∀ path s, _get_bindings path (.str s) = [])
    ∧ (∀ path t, (_get_bindings path t).length = countPlaceholders t) := by
  refine ⟨fun path vs => by simp [_get_bindings],
    fun path nm fs => by
      simp [_get_bindings, get_bindings_from_class_eq],
    fun path items => by
      simp [_get_bindings, get_bindings_from_seq_eq, List.enum],
    fun path items => by
      simp [_get_bindings, get_bindings_from_seq_eq, List.enum],
    fun path es => by
      simp [_get_bindings, get_bindings_from_dict_eq],
    fun path n => by simp [_get_bindings],
    fun path s => by simp [_get_bindings],
    fun path t => get_bindings_length t path⟩

/-- C8: a placeholder-free template yields exactly one `TemplateRealization`,
with an empty specification map and a realization value-equal to the
template, and `count_realizations` returns 1. -/
theorem c8_no_placeholder (t : Value) (h : countPlaceholders t = 0) :
    realize_template t = [some ⟨[], t⟩]
    ∧ yieldedRealizations t = [⟨[], t⟩]
    ∧ count_realizations t = 1 := by
  have hb : _get_bindings [] t = [] := (get_bindings_nil_iff t).mpr h
  have h1 : realize_template t = [some ⟨[], t⟩] := by
    simp [realize_template, _get_all_binding_realizations, hb, listProduct,
      _realize, applyAll]
  refine ⟨h1, ?_, ?_⟩
  · simp [yieldedRealizations, h1, takeWhileSome]
  · simp [count_realizations, hb]

theorem c8_no_placeholder_witness :
    countPlaceholders (Value.int 7) = 0
    ∧ realize_template (Value.int 7) = [some ⟨[], Value.int 7⟩]
    ∧ count_realizations (Value.int 7) = 1 := by
  have h := c8_no_placeholder (Value.int 7) (by simp [countPlaceholders])
  exact ⟨by simp [countPlaceholders], h.1, h.2.2⟩

/-- C10: a placeholder at the template root is discovered as one binding with
an empty access path; `count_realizations` returns its number of candidates,
but every combination fails with an error while applying that first binding
realization (`path[-1]` on an empty path), so `realize_template` produces
error outcomes only and yields no `TemplateRealization` at all. -/
theorem flatMap_wrap_singleton {α : Type} :
    ∀ l : List α, (l.flatMap fun x => [[x]]) = l.map fun x => [x] := by
  intro l
  induction l with
  | nil => rfl
  | cons x xs ih => simp [ih]

theorem map_const_none {α β : Type} :
    ∀ l : List α, (l.map fun _ => (none : Option β)) = List.replicate l.length none := by
  intro l
  induction l with
  | nil => rfl
  | cons x xs ih => simp [ih, List.replicate_succ]

theorem c10_root_placeholder (vs : List Value) (h : vs ≠ []) :
    count_realizations (.candidates vs) = vs.length
    ∧ realize_template (.candidates vs) = List.replicate vs.length none
    ∧ (realize_template (.candidates vs)).head? = some none
    ∧ yieldedRealizations (.candidates vs) = [] := by
  have hb : _get_bindings [] (.candidates vs) = [⟨[], vs⟩] := by
    simp [_get_bindings]
  have hprod : _get_all_binding_realizations (.candidates vs) =
      vs.map fun v => [(⟨[], v⟩ : BindingRealization)] := by
    simp only [_get_all_binding_realizations, hb, List.map_cons, List.map_nil,
      listProduct, Binding.realize]
    rw [flatMap_wrap_singleton, List.map_map]
    rfl
  have hrt : realize_template (.candidates vs) = List.replicate vs.length none := by
    rw [realize_template, hprod, List.map_map]
    have hone : ∀ v : Value,
        _realize (.candidates vs) [(⟨[], v⟩ : BindingRealization)] = none := by
      intro v
      simp [_realize, applyAll, BindingRealization.apply]
    rw [List.map_congr_left (fun v _ => by
      show _realize (.candidates vs) [(⟨[], v⟩ : BindingRealization)] = (fun _ => none) v
      exact hone v)]
    rw [map_const_none]
  refine ⟨?_, hrt, ?_, ?_⟩
  · simp [count_realizations, hb]
  · rw [hrt]
    match vs, h with
    | v :: rest, _ => simp [List.replicate_succ]
  · rw [yieldedRealizations, hrt]
    match vs, h with
    | v :: rest, _ => simp [List.replicate_succ, takeWhileSome]

theorem c10_root_placeholder_witness :
    count_realizations (.candidates [Value.int 1]) = 1
    ∧ realize_template (.candidates [Value.int 1]) = [none]
    ∧ yieldedRealizations (.candidates [Value.int 1]) = [] := by
  have h := c10_root_placeholder [Value.int 1] (by simp)
  exact ⟨h.1, h.2.1, h.2.2.2⟩

/-- C6: the enumerator lists the combinations of the discovered bindings in
standard mixed-radix cross-product order — the first-discovered binding's
index cycles slowest and the last-discovered binding's index advances on
every step; with no bindings it produces exactly one empty combination; and
any binding with an empty candidate list makes it produce no combinations,
so `count_realizations` returns 0 and `realize_template` yields nothing. -/
theorem c6_product_order :
    (∀ (t : Value) (k : Nat),
      (_get_all_binding_realizations t).get? k =
        mixedRadixAt ((_get_bindings [] t).map Binding.realize) k)
    ∧ (∀ t : Value, _get_bindings [] t = [] → _get_all_binding_realizations t = [[]])
    ∧ (∀ (t : Value) (b : Binding), b ∈ _get_bindings [] t → b.values = [] →
        _get_all_binding_realizations t = [] ∧ count_realizations t = 0 ∧
          realize_template t = []) := by
  refine ⟨fun t k => listProduct_get? _ k,
    fun t h => by simp [_get_all_binding_realizations, h, listProduct],
    fun t b hb hbv => ?_⟩
  have hlen : (_get_all_binding_realizations t).length = 0 := by
    rw [_get_all_binding_realizations, listProduct_length, prodLengths, List.map_map]
    apply List.prod_eq_zero
    simp only [List.mem_map, Function.comp]
    exact ⟨b, hb, by simp [Binding.realize, hbv]⟩
  have hnil : _get_all_binding_realizations t = [] := List.length_eq_zero.mp hlen
  refine ⟨hnil, ?_, by simp [realize_template, hnil]⟩
  rw [count_realizations_eq_prod]
  apply List.prod_eq_zero
  simp only [List.mem_map]
  exact ⟨b, hb, by simp [hbv]⟩

theorem c6_product_order_witness :
    _get_all_binding_realizations (.record "T" [("a", .candidates [])]) = []
    ∧ count_realizations (.record "T" [("a", .candidates [])]) = 0
    ∧ realize_template (.record "T" [("a", .candidates [])]) = []
    ∧ _get_all_binding_realizations (Value.int 3) = [[]] := by
  have h := c6_product_order
  have hb : _get_bindings [] (.record "T" [("a", .candidates [])]) =
      [⟨[⟨.DATACLASS_ATTR, .name "a"⟩], []⟩] := by
    simp [_get_bindings, _get_bindings_from_class]
  have h3 := h.2.2 (.record "T" [("a", .candidates [])])
    ⟨[⟨.DATACLASS_ATTR, .name "a"⟩], []⟩ (by rw [hb]; simp) rfl
  exact ⟨h3.1, h3.2.1, h3.2.2, h.2.1 (Value.int 3) (by simp [_get_bindings])⟩

/-- C1 (amended): for every template, `count_realizations` equals the product
of the candidate-list lengths of the discovered bindings; and whenever every
combination realizes without an application error, it also equals the number
of realizations actually yielded by `realize_template`.  (The error cases are
real: a placeholder at the template root, and a placeholder below nested
immutable sequences, both make every application raise, so the original
unconditional claim fails there.) -/
theorem c1_count_eq_product (t : Value) :
    count_realizations t = ((_get_bindings [] t).map fun b => b.values.length).prod
    ∧ ((∀ x ∈ realize_template t, x.isSome) →
        (yieldedRealizations t).length = count_realizations t) := by
  refine ⟨count_realizations_eq_prod t, fun hall => ?_⟩
  rw [yieldedRealizations, takeWhileSome_all_some _ hall]
  rw [realize_template, List.length_map, _get_all_binding_realizations,
    listProduct_length, count_realizations_eq_prod, prodLengths, List.map_map]
  congr 1
  apply List.map_congr_left
  intro b _
  simp [Binding.realize]

/-- Concrete template with one placeholder under a record field. -/
def exampleFieldPlaceholder : Value :=
  .record "T" [("a", .candidates [.int 1, .int 2])]

theorem c1_count_eq_product_witness :
    (yieldedRealizations exampleFieldPlaceholder).length =
      count_realizations exampleFieldPlaceholder := by
  refine (c1_count_eq_product exampleFieldPlaceholder).2 ?_
  simp [exampleFieldPlaceholder, realize_template, _get_all_binding_realizations,
    _get_bindings, _get_bindings_from_class, listProduct, Binding.realize,
    _realize, applyAll, BindingRealization.apply, _setter, updateAt, _getter,
    setInPlace, subscriptAssign, putBack, hasKey, updateKey, walk, enumItems,
    tupleSubst, subscript, dictInsert]

/-- Root-placeholder template: the input on which the original C1 claim
fails. -/
def rootPlaceholderExample : Value := .candidates [.int 0]

theorem c1_counterexample :
    count_realizations rootPlaceholderExample = 1
    ∧ yieldedRealizations rootPlaceholderExample = [] := by
  constructor
  · simp [rootPlaceholderExample, count_realizations, _get_bindings]
  · simp [rootPlaceholderExample, yieldedRealizations, realize_template,
      _get_all_binding_realizations, _get_bindings, listProduct, Binding.realize,
      _realize, applyAll, BindingRealization.apply, takeWhileSome]

theorem string_join_b1 : String.intercalate "." ["b", toString (1 : Nat)] = "b.1" := by
  decide

theorem string_join_b2 : String.intercalate "." ["b", toString (2 : Nat)] = "b.2" := by
  decide

/-- Scenario C of the specification: `t.b = [1, Placeholder(11,12),
Placeholder(21,22,23)]`. -/
def scenarioC : Value :=
  .record "T" [("b", .vlist [.int 1, .candidates [.int 11, .int 12],
    .candidates [.int 21, .int 22, .int 23]])]

/-- C9: the specification key of a binding realization is the dotted form of
its access path — each step's position stringified and joined by dots; a
placeholder at sequence index 2 under record field b gets key "b.2", one two
records deep gets "field3.field1", and an end-to-end run of scenario C
produces six realizations whose specification keys are exactly "b.1" and
"b.2". -/
theorem c9_dotted_specification_keys :
    (∀ br : BindingRealization, br.get_specification =
      [(String.intercalate "." (br.path.map fun item => item.position.str), br.value)])
    ∧ dottedPath [⟨.DATACLASS_ATTR, .name "b"⟩, ⟨.LIST_ITEM, .index 2⟩] = "b.2"
    ∧ dottedPath [⟨.DATACLASS_ATTR, .name "field3"⟩,
        ⟨.DATACLASS_ATTR, .name "field1"⟩] = "field3.field1"
    ∧ count_realizations scenarioC = 6
    ∧ (yieldedRealizations scenarioC).map (fun r => r.specification.map Prod.fst) =
        List.replicate 6 ["b.1", "b.2"] := by
  refine ⟨fun br => rfl, by decide, by decide, ?_, ?_⟩
  · simp [scenarioC, count_realizations, _get_bindings, _get_bindings_from_class,
      _get_bindings_from_seq]
  · simp [scenarioC, yieldedRealizations, realize_template,
      _get_all_binding_realizations, _get_bindings, _get_bindings_from_class,
      _get_bindings_from_seq, listProduct, Binding.realize, _realize, applyAll,
      BindingRealization.apply, BindingRealization.get_specification, dottedPath,
      Position.str, _setter, updateAt, _getter, lookupField, setInPlace,
      subscriptAssign, putBack, hasKey, updateKey, dictInsert, walk, enumItems,
      tupleSubst, subscript, takeWhileSome, string_join_b1, string_join_b2]

theorem hasKey_of_lookup_some (fs : List (String × Value)) (s : String) (w : Value)
    (h : lookupField fs s = some w) : hasKey fs s = true := by
  cases hk : hasKey fs s with
  | false => rw [(lookupField_eq_none_iff fs s).mpr hk] at h; cases h
  | true => rfl

theorem lookupField_updateKey_self (fs : List (String × Value)) (s : String) (v : Value)
    (h : hasKey fs s = true) : lookupField (updateKey fs s v) s = some v := by
  induction fs with
  | nil => simp [hasKey] at h
  | cons kv rest ih =>
    obtain ⟨k, w⟩ := kv
    by_cases hk : k = s
    · simp [updateKey, lookupField, hk]
    · simp only [hasKey, Bool.or_eq_true, decide_eq_true_eq] at h
      rcases h with h | h
      · exact absurd h hk
      · simp [updateKey, lookupField, hk, ih h]

theorem lookupField_updateKey_other (fs : List (String × Value)) (s t : String) (v : Value)
    (h : ¬ (s = t)) : lookupField (updateKey fs s v) t = lookupField fs t := by
  induction fs with
  | nil => simp [updateKey]
  | cons kv rest ih =>
    obtain ⟨k, w⟩ := kv
    by_cases hk : k = s
    · subst hk
      simp [updateKey, lookupField, h]
    · simp [updateKey, lookupField, hk, ih]

theorem getter_putBack_self (c c' : Value) (a : CandidateAccess) (v : Value)
    (h : putBack c a v = some c') : _getter c' a = some v := by
  obtain ⟨ty, pos⟩ := a
  cases ty <;> cases c <;> cases pos <;> simp [putBack] at h <;>
    obtain ⟨hc, rfl⟩ := h <;>
    first
      | simp [_getter, subscript, lookupField_updateKey_self _ _ _ hc]
      | (simp only [_getter, subscript]
         rw [List.get?_eq_getElem?, List.getElem?_set_eq_of_lt _ hc])

theorem getter_putBack_other (c c' : Value) (a b : CandidateAccess) (v : Value)
    (h : putBack c a v = some c') (hab : ¬ (a.position = b.position)) :
    _getter c' b = _getter c b := by
  obtain ⟨ty, pos⟩ := a
  obtain ⟨tyb, posb⟩ := b
  simp only at hab
  cases ty <;> cases c <;> cases pos <;> simp [putBack] at h <;> obtain ⟨hc, rfl⟩ := h
  all_goals
    cases tyb <;> cases posb <;>
      simp only [_getter, subscript] <;>
      first
        | rfl
        | (simp only [Position.name.injEq] at hab
           exact lookupField_updateKey_other _ _ _ _ hab)
        | (simp only [Position.index.injEq] at hab
           rw [List.get?_eq_getElem?, List.get?_eq_getElem?, List.getElem?_set_ne hab])

theorem walk_append (p : List CandidateAccess) :
    ∀ (root : Value) (q : List CandidateAccess),
      walk root (p ++ q) = (walk root p).bind fun c => walk c q := by
  induction p with
  | nil => intro root q; simp [walk]
  | cons a rest ih =>
    intro root q
    simp only [List.cons_append, walk]
    cases _getter root a <;> simp [ih]

theorem updateAt_append (p q : List CandidateAccess) (f : Value → Option Value) :
    ∀ root, updateAt root (p ++ q) f = updateAt root p fun c => updateAt c q f := by
  induction p with
  | nil => intro root; rfl
  | cons a rest ih =>
    intro root
    simp only [List.cons_append, updateAt]
    cases _getter root a <;> simp [ih]

theorem updateAt_congr (p : List CandidateAccess) (f g : Value → Option Value) :
    ∀ root, (∀ c, walk root p = some c → f c = g c) →
      updateAt root p f = updateAt root p g := by
  induction p with
  | nil => intro root h; exact h root rfl
  | cons a rest ih =>
    intro root h
    simp only [updateAt]
    cases hg : _getter root a with
    | none => rfl
    | some child =>
      have heq : updateAt child rest f = updateAt child rest g :=
        ih child fun c hc => h c (by simp only [walk, hg]; exact hc)
      dsimp only
      rw [heq]

theorem updateAt_some_walk (p : List CandidateAccess) :
    ∀ (root r : Value) (f : Value → Option Value), updateAt root p f = some r →
      ∃ c, walk root p = some c ∧ (f c).isSome := by
  induction p with
  | nil =>
    intro root r f h
    refine ⟨root, rfl, ?_⟩
    simp only [updateAt] at h
    simp [h]
  | cons a rest ih =>
    intro root r f h
    simp only [updateAt] at h
    cases hg : _getter root a with
    | none => simp only [hg] at h; cases h
    | some child =>
      simp only [hg] at h
      cases hu : updateAt child rest f with
      | none => simp only [hu] at h; cases h
      | some child2 =>
        obtain ⟨c, hc, hf⟩ := ih child child2 f hu
        exact ⟨c, by simp only [walk, hg]; exact hc, hf⟩

theorem walk_updateAt_self (p : List CandidateAccess) :
    ∀ (root root' nv : Value), updateAt root p (fun _ => some nv) = some root' →
      walk root' p = some nv := by
  induction p with
  | nil =>
    intro root root' nv h
    simp only [updateAt] at h
    cases h
    rfl
  | cons a rest ih =>
    intro root root' nv h
    simp only [updateAt] at h
    cases hg : _getter root a with
    | none => simp only [hg] at h; cases h
    | some child =>
      simp only [hg] at h
      cases hu : updateAt child rest (fun _ => some nv) with
      | none => simp only [hu] at h; cases h
      | some child2 =>
        simp only [hu] at h
        have hg' : _getter root' a = some child2 :=
          getter_putBack_self root root' a child2 h
        simp only [walk, hg']
        exact ih child child2 nv hu

theorem walk_updateAt_frame (q : List CandidateAccess) :
    ∀ (root root' : Value) (a : CandidateAccess) (p2 : List CandidateAccess)
      (f : Value → Option Value) (b : CandidateAccess) (q2 : List CandidateAccess),
      updateAt root (q ++ a :: p2) f = some root' →
      ¬ (a.position = b.position) →
      walk root' (q ++ b :: q2) = walk root (q ++ b :: q2) := by
  induction q with
  | nil =>
    intro root root' a p2 f b q2 h hab
    simp only [List.nil_append, updateAt] at h
    cases hg : _getter root a with
    | none => simp only [hg] at h; cases h
    | some child =>
      simp only [hg] at h
      cases hu : updateAt child p2 f with
      | none => simp only [hu] at h; cases h
      | some child2 =>
        simp only [hu] at h
        have hgb := getter_putBack_other root root' a b child2 h hab
        simp only [List.nil_append, walk, hgb]
  | cons x q ih =>
    intro root root' a p2 f b q2 h hab
    simp only [List.cons_append, updateAt] at h
    cases hg : _getter root x with
    | none => simp only [hg] at h; cases h
    | some child =>
      simp only [hg, List.append_eq] at h
      cases hu : updateAt child (q ++ a :: p2) f with
      | none => simp only [hu] at h; cases h
      | some child2 =>
        simp only [hu] at h
        have hgx : _getter root' x = some child2 :=
          getter_putBack_self root root' x child2 h
        simp only [List.cons_append, walk, hgx, hg]
        exact ih child child2 a p2 f b q2 hu hab

theorem get?_some_lt {α : Type} {l : List α} {i : Nat} {w : α}
    (h : l.get? i = some w) : i < l.length := by
  by_contra hc
  rw [List.get?_eq_none.mpr (Nat.le_of_not_lt hc)] at h
  cases h

/-- When the addressed slot exists and the in-place write succeeds, its
effect is exactly the slot substitution `putBack` performs. -/
theorem setInPlace_eq_putBack (c : Value) (a : CandidateAccess) (v w : Value)
    (hg : _getter c a = some w) (hs : (setInPlace c a v).isSome) :
    setInPlace c a v = putBack c a v := by
  obtain ⟨ty, pos⟩ := a
  cases ty <;> cases c <;> cases pos <;>
    simp only [_getter, subscript] at hg <;>
    first
      | cases hg
      | (simp only [setInPlace, subscriptAssign, Option.isSome_none] at hs; cases hs)
      | simp [setInPlace, subscriptAssign, putBack, hasKey_of_lookup_some _ _ _ hg]
      | simp [setInPlace, subscriptAssign, putBack, get?_some_lt hg]

/-- The parent-redirected tuple write of `_setter` has the same net effect as
replacing the whole tuple at its own path. -/
theorem c3_core (root root' v : Value) (pp : List CandidateAccess)
    (pa : CandidateAccess) (items : List Value) (i : Nat)
    (hw : walk root (pp ++ [pa]) = some (.vtuple items))
    (ha : updateAt root pp
      (fun parent => setInPlace parent pa (Value.vtuple (items.set i v))) = some root') :
    updateAt root (pp ++ [pa]) (fun _ => some (Value.vtuple (items.set i v))) = some root' := by
  rw [walk_append] at hw
  cases hwp : walk root pp with
  | none => rw [hwp] at hw; cases hw
  | some cpar =>
    rw [hwp] at hw
    simp only [Option.some_bind] at hw
    have hgp : _getter cpar pa = some (.vtuple items) := by
      simp only [walk] at hw
      cases hgp' : _getter cpar pa with
      | none => rw [hgp'] at hw; cases hw
      | some w =>
        rw [hgp'] at hw
        simp only [walk] at hw
        cases hw
        rfl
    obtain ⟨c, hc, hsome⟩ := updateAt_some_walk pp root root' _ ha
    rw [hwp] at hc
    injection hc with hc
    subst hc
    have heq := setInPlace_eq_putBack cpar pa (Value.vtuple (items.set i v))
      (.vtuple items) hgp hsome
    rw [updateAt_append]
    have hcong : updateAt root pp
        (fun c0 => updateAt c0 [pa] fun _ => some (Value.vtuple (items.set i v)))
        = updateAt root pp
          (fun parent => setInPlace parent pa (Value.vtuple (items.set i v))) := by
      apply updateAt_congr
      intro c0 hc0
      rw [hwp] at hc0
      injection hc0 with hc0
      subst hc0
      show updateAt cpar [pa] (fun _ => some (Value.vtuple (items.set i v)))
        = setInPlace cpar pa (Value.vtuple (items.set i v))
      simp only [updateAt, hgp]
      exact heq.symm
    rw [hcong]
    exact ha

/-- C3: a write whose last step is an immutable-sequence (tuple) slot builds a
new sequence with the value substituted at the index and recursively invokes
the setter on the parent container at the parent step.  A successful write
equals the canonical replacement of the whole tuple along its path: the
ancestor one level up now references the new sequence (reading the tuple's
path back yields it), and every container off that path is untouched.  An
empty prefix — the tuple at the template root — never succeeds, which is the
documented precondition. -/
theorem c3_immutable_sequence_write (root root' v : Value)
    (pre : List CandidateAccess) (items : List Value) (i : Nat)
    (hw : walk root pre = some (.vtuple items))
    (hi : i < items.length)
    (ha : BindingRealization.apply
      ⟨pre ++ [⟨.TUPLE_ITEM, .index i⟩], v⟩ root = some root') :
    pre ≠ []
    ∧ updateAt root pre (fun _ => some (.vtuple (items.set i v))) = some root'
    ∧ walk root' pre = some (.vtuple (items.set i v))
    ∧ (∀ (q : List CandidateAccess) (a b : CandidateAccess)
        (p2 q2 : List CandidateAccess),
        pre = q ++ a :: p2 → ¬ (a.position = b.position) →
        walk root' (q ++ b :: q2) = walk root (q ++ b :: q2)) := by
  simp only [BindingRealization.apply, List.getLast?_concat, List.dropLast_concat] at ha
  simp only [_setter] at ha
  rw [hw] at ha
  simp only [Option.some_bind, enumItems, tupleSubst] at ha
  cases hpre : pre.getLast? with
  | none => simp only [hpre] at ha; cases ha
  | some pa =>
    simp only [hpre] at ha
    obtain ⟨pp, rfl⟩ : ∃ pp, pre = pp ++ [pa] := List.getLast?_eq_some_iff.mp hpre
    have h2 : updateAt root (pp ++ [pa])
        (fun _ => some (Value.vtuple (items.set i v))) = some root' := by
      cases hpa : pa.access_type <;>
        simp only [hpa] at ha <;>
        first
          | cases ha
          | (rw [List.dropLast_concat] at ha
             exact c3_core root root' v pp pa items i hw ha)
    refine ⟨by simp, h2, walk_updateAt_self _ _ _ _ h2, ?_⟩
    intro q a b p2 q2 hpre2 hab
    rw [hpre2] at h2
    exact walk_updateAt_frame q root root' a p2 _ b q2 h2 hab

theorem c3_immutable_sequence_write_witness :
    ([(⟨.DATACLASS_ATTR, .name "f"⟩ : CandidateAccess)] : List CandidateAccess) ≠ []
    ∧ walk (Value.record "L" [("f", Value.vtuple [Value.int 1, Value.int 9])])
        [⟨.DATACLASS_ATTR, .name "f"⟩] =
        some (Value.vtuple [Value.int 1, Value.int 9]) := by
  have h := c3_immutable_sequence_write
    (Value.record "L" [("f", Value.vtuple [Value.int 1, Value.int 2])])
    (Value.record "L" [("f", Value.vtuple [Value.int 1, Value.int 9])])
    (Value.int 9)
    [⟨.DATACLASS_ATTR, .name "f"⟩]
    [Value.int 1, Value.int 2] 1
    (by simp [walk, _getter, lookupField])
    (by simp)
    (by simp [BindingRealization.apply, _setter, walk, _getter, lookupField,
      enumItems, tupleSubst, updateAt, setInPlace, putBack, hasKey, updateKey,
      subscriptAssign])
  exact ⟨h.1, h.2.2.1⟩

theorem product_realize_shape (bs : List Binding) (tup : List BindingRealization)
    (h : tup ∈ listProduct (bs.map Binding.realize)) :
    tup.length = bs.length
    ∧ ∀ m b br, bs.get? m = some b → tup.get? m = some br →
        br.path = b.path ∧ br.value ∈ b.values := by
  obtain ⟨hlen, hget⟩ := listProduct_mem_shape (bs.map Binding.realize) tup h
  refine ⟨by simpa using hlen, ?_⟩
  intro m b br hb hbr
  have hl : (bs.map Binding.realize).get? m = some (Binding.realize b) := by
    rw [List.get?_map, hb]
    rfl
  have hmem := hget m br (Binding.realize b) hbr hl
  simp only [Binding.realize, List.mem_map] at hmem
  obtain ⟨v, hv, rfl⟩ := hmem
  exact ⟨rfl, hv⟩

theorem product_tuple_keys (bs : List Binding) (tup : List BindingRealization)
    (h : tup ∈ listProduct (bs.map Binding.realize)) :
    (tup.map fun br => dottedPath br.path) = bs.map fun b => dottedPath b.path := by
  obtain ⟨hlen, hget⟩ := product_realize_shape bs tup h
  apply List.ext_get?
  intro m
  rw [List.get?_map, List.get?_map]
  cases hb : bs.get? m with
  | none =>
    have hm : bs.length ≤ m := List.get?_eq_none.mp hb
    have : tup.get? m = none := List.get?_eq_none.mpr (by omega)
    rw [this]
    rfl
  | some b =>
    have hmlt : m < bs.length := get?_some_lt hb
    cases hbr : tup.get? m with
    | none =>
      exfalso
      have := List.get?_eq_none.mp hbr
      omega
    | some br =>
      have hp := (hget m b br hb hbr).1
      simp [hp]

theorem realize_nodup (b : Binding) (h : b.values.Nodup) : (Binding.realize b).Nodup :=
  List.Nodup.map (fun v w hvw => congrArg BindingRealization.value hvw) h

/-- C5 (amended): for a template whose discovered bindings have pairwise
distinct dotted path keys and whose candidate lists are each duplicate-free,
no two realizations produced in one enumeration share identical
specification maps. -/
theorem c5_distinct_specifications (t : Value)
    (hkeys : ((_get_bindings [] t).map fun b => dottedPath b.path).Nodup)
    (hvals : ∀ b ∈ _get_bindings [] t, b.values.Nodup) :
    ∀ (i j : Nat) (ri rj : TemplateRealization), ¬ (i = j) →
      (realize_template t).get? i = some (some ri) →
      (realize_template t).get? j = some (some rj) →
      ¬ (ri.specification = rj.specification) := by
  intro i j ri rj hij hi hj hspec
  rw [realize_template, List.get?_map] at hi hj
  cases hti : (_get_all_binding_realizations t).get? i with
  | none => rw [hti] at hi; cases hi
  | some tupi =>
  cases htj : (_get_all_binding_realizations t).get? j with
  | none => rw [htj] at hj; cases hj
  | some tupj =>
  rw [hti] at hi
  rw [htj] at hj
  simp only [Option.map_some'] at hi hj
  injection hi with hi
  injection hj with hj
  have hnd : (listProduct ((_get_bindings [] t).map Binding.realize)).Nodup := by
    apply listProduct_nodup
    intro l hl
    simp only [List.mem_map] at hl
    obtain ⟨b, hb, rfl⟩ := hl
    exact realize_nodup b (hvals b hb)
  have htne : ¬ (tupi = tupj) := by
    intro he
    subst he
    exact hij (List.get?_inj (get?_some_lt hti) hnd (hti.trans htj.symm))
  have hmi : tupi ∈ listProduct ((_get_bindings [] t).map Binding.realize) :=
    List.get?_mem hti
  have hmj : tupj ∈ listProduct ((_get_bindings [] t).map Binding.realize) :=
    List.get?_mem htj
  have hkeysi := product_tuple_keys _ tupi hmi
  have hkeysj := product_tuple_keys _ tupj hmj
  have hspeci := realize_specification t tupi ri hi (by rw [hkeysi]; exact hkeys)
  have hspecj := realize_specification t tupj rj hj (by rw [hkeysj]; exact hkeys)
  rw [hspeci, hspecj] at hspec
  apply htne
  apply List.ext_get?
  intro m
  have hpair := congrArg (fun l => l.get? m) hspec
  simp only [List.get?_map] at hpair
  obtain ⟨hleni, hgeti⟩ := product_realize_shape _ tupi hmi
  obtain ⟨hlenj, hgetj⟩ := product_realize_shape _ tupj hmj
  cases hbm : (_get_bindings [] t).get? m with
  | none =>
    have hm : (_get_bindings [] t).length ≤ m := List.get?_eq_none.mp hbm
    have h1 : tupi.get? m = none := List.get?_eq_none.mpr (by omega)
    have h2 : tupj.get? m = none := List.get?_eq_none.mpr (by omega)
    rw [h1, h2]
  | some b =>
    have hmlt : m < (_get_bindings [] t).length := get?_some_lt hbm
    cases hbri : tupi.get? m with
    | none =>
      exfalso
      have := List.get?_eq_none.mp hbri
      omega
    | some bri =>
    cases hbrj : tupj.get? m with
    | none =>
      exfalso
      have := List.get?_eq_none.mp hbrj
      omega
    | some brj =>
    rw [hbri, hbrj] at hpair
    simp only [Option.map_some'] at hpair
    injection hpair with hpair
    have hpi := (hgeti m b bri hbm hbri).1
    have hpj := (hgetj m b brj hbm hbrj).1
    obtain ⟨pi2, vi⟩ := bri
    obtain ⟨pj2, vj⟩ := brj
    simp only at hpi hpj
    subst hpi
    subst hpj
    simp only [Prod.mk.injEq] at hpair
    rw [hpair.2]

theorem string_join_a : String.intercalate "." ["a"] = "a" := by decide

/-- Template with duplicate candidate values, on which the original C5 claim
fails: both realizations carry the same specification map. -/
def duplicateCandidatesExample : Value :=
  .record "T" [("a", .candidates [.int 1, .int 1])]

theorem c5_counterexample :
    (realize_template duplicateCandidatesExample).length = 2
    ∧ (realize_template duplicateCandidatesExample).get? 0 =
        (realize_template duplicateCandidatesExample).get? 1
    ∧ (realize_template duplicateCandidatesExample).get? 0 =
        some (some ⟨[("a", Value.int 1)], .record "T" [("a", Value.int 1)]⟩) := by
  refine ⟨?_, ?_, ?_⟩ <;>
    simp [duplicateCandidatesExample, realize_template, _get_all_binding_realizations,
      _get_bindings, _get_bindings_from_class, listProduct, Binding.realize, _realize,
      applyAll, BindingRealization.apply, BindingRealization.get_specification,
      dottedPath, Position.str, _setter, updateAt, _getter, lookupField, setInPlace,
      subscriptAssign, putBack, hasKey, updateKey, dictInsert, walk, enumItems,
      tupleSubst, subscript, string_join_a]

theorem c5_distinct_specifications_witness :
    ¬ ([("a", Value.int 1)] : List (String × Value)) = [("a", Value.int 2)] := by
  refine c5_distinct_specifications exampleFieldPlaceholder ?_ ?_ 0 1
    ⟨[("a", Value.int 1)], .record "T" [("a", Value.int 1)]⟩
    ⟨[("a", Value.int 2)], .record "T" [("a", Value.int 2)]⟩
    (by simp) ?_ ?_
  · simp [exampleFieldPlaceholder, _get_bindings, _get_bindings_from_class]
  · intro b hb
    simp [exampleFieldPlaceholder, _get_bindings, _get_bindings_from_class] at hb
    subst hb
    simp
  · simp [exampleFieldPlaceholder, realize_template, _get_all_binding_realizations,
      _get_bindings, _get_bindings_from_class, listProduct, Binding.realize, _realize,
      applyAll, BindingRealization.apply, BindingRealization.get_specification,
      dottedPath, Position.str, _setter, updateAt, _getter, lookupField, setInPlace,
      subscriptAssign, putBack, hasKey, updateKey, dictInsert, walk, enumItems,
      tupleSubst, subscript, string_join_a]
    try decide
  · simp [exampleFieldPlaceholder, realize_template, _get_all_binding_realizations,
      _get_bindings, _get_bindings_from_class, listProduct, Binding.realize, _realize,
      applyAll, BindingRealization.apply, BindingRealization.get_specification,
      dottedPath, Position.str, _setter, updateAt, _getter, lookupField, setInPlace,
      subscriptAssign, putBack, hasKey, updateKey, dictInsert, walk, enumItems,
      tupleSubst, subscript, string_join_a]
    try decide

end Expyriment
